import Mathlib

/-!
Verification of the traffic-control and resilience layer of the go2 URL
shortener: the in-memory sliding-window rate limiter
(`apps/api/src/middleware/rate_limiting.py`) and the circuit breaker with
graceful degradation (`apps/api/src/utils/circuit_breaker.py`).

Timestamps (Python `time.time()` floats) are modelled as rationals.  The
per-key deques of the rate limiter are modelled as lists (front of the
deque = head of the list); `popleft` loops become `List.dropWhile`.  The
`defaultdict` map from client key to deque is modelled as a total function
`String → List ℚ` where a missing key is the empty list — deleting an
emptied key (done by the periodic sweep purely to free memory) is
observationally the identity in this representation.
-/

namespace Go2

/-- Truncation toward zero on rationals, the behaviour of Python `int()`
applied to a float. -/
def truncInt (q : ℚ) : ℤ := if 0 ≤ q then ⌊q⌋ else ⌈q⌉

/-- State of `InMemoryRateLimiter`: the `requests` map (client key to
timestamp sequence, front = oldest) and `last_cleanup` (time of the last
periodic sweep, initialised to the construction time). -/
structure InMemoryRateLimiter where
  requests : String → List ℚ
  last_cleanup : ℚ

/-- A freshly constructed `InMemoryRateLimiter` whose `__init__` ran at
time `t0`: empty map, `last_cleanup = t0`. -/
def initLimiter (t0 : ℚ) : InMemoryRateLimiter :=
  { requests := fun _ => [], last_cleanup := t0 }

/-- The map after `_cleanup_old_entries(cutoff)`: every key's sequence is
popped from the front while the front entry is `<= cutoff`; emptied keys
are deleted from the dict, which is invisible in the total-function
representation. -/
def cleanup_old_entries (reqs : String → List ℚ) (cutoff : ℚ) : String → List ℚ :=
  fun k => (reqs k).dropWhile (fun t => decide (t ≤ cutoff))

/-- The periodic-sweep prelude of `is_allowed`: when more than 60 seconds
have passed since `last_cleanup`, run `_cleanup_old_entries(now - window * 2)`
over the whole map (note the cutoff is derived from the window argument of
the in-flight call) and stamp `last_cleanup = now`. -/
def sweep (s : InMemoryRateLimiter) (window now : ℚ) : InMemoryRateLimiter :=
  if 60 < now - s.last_cleanup then
    { requests := cleanup_old_entries s.requests (now - window * 2), last_cleanup := now }
  else s

/-- `InMemoryRateLimiter.is_allowed(key, limit, window)` called at time
`now`.  Returns `none` exactly when the Python code would raise (the
`request_times[0]` indexing on an empty deque, reachable only when
`limit = 0` and the trimmed sequence is empty); otherwise
`some (new state, (is_allowed, retry_after))`.  Both the periodic sweep
(when `now - last_cleanup > 60`, with cutoff `now - window * 2`) and the
in-place trim of the key's deque are persisted in the returned state, in
the rejection branch as well, since the Python code mutates the deque it
fetched from the dict. -/
def is_allowed (s : InMemoryRateLimiter) (key : String) (limit : ℕ) (window : ℚ)
    (now : ℚ) : Option (InMemoryRateLimiter × Bool × Option ℤ) :=
  let s1 := sweep s window now
  let request_times := (s1.requests key).dropWhile (fun t => decide (t ≤ now - window))
  if limit ≤ request_times.length then
    match request_times with
    | [] => none
    | oldest_request :: _ =>
      some ({ s1 with requests := fun k => if k = key then request_times else s1.requests k },
            false, some (truncInt (oldest_request + window - now) + 1))
  else
    some ({ s1 with requests := fun k => if k = key then request_times ++ [now] else s1.requests k },
          true, none)

/-- One `is_allowed` invocation: key, limit, window, and the value of
`time.time()` at the call. -/
structure RLCall where
  key : String
  limit : ℕ
  window : ℚ
  now : ℚ

/-- Run a sequence of `is_allowed` calls, threading the limiter state and
collecting the `(allowed, retry_after)` decisions; `none` if any call
raises. -/
def runCalls : InMemoryRateLimiter → List RLCall →
    Option (InMemoryRateLimiter × List (Bool × Option ℤ))
  | s, [] => some (s, [])
  | s, c :: cs =>
    match is_allowed s c.key c.limit c.window c.now with
    | none => none
    | some (s', d) =>
      match runCalls s' cs with
      | none => none
      | some (s'', ds) => some (s'', d :: ds)

/-- The decisions of a sequence of `is_allowed` calls, without the final
state (whose map component is a function and hence not decidably
comparable). -/
def runDecisions (s : InMemoryRateLimiter) (cs : List RLCall) :
    Option (List (Bool × Option ℤ)) :=
  (runCalls s cs).map Prod.snd

/-- States of a `CircuitBreaker` (`CircuitState` in the source; `OPEN` is
rendered `open_` because `open` is a Lean keyword). -/
inductive CircuitState where
  | closed
  | open_
  | half_open
  deriving DecidableEq, Repr

/-- `CircuitBreakerConfig`, with the source's defaults. -/
structure CircuitBreakerConfig where
  failure_threshold : ℕ := 5
  recovery_timeout : ℚ := 60
  success_threshold : ℕ := 3
  timeout : ℚ := 30

/-- `CircuitBreakerStats`, with the source's defaults. -/
structure CircuitBreakerStats where
  state : CircuitState := CircuitState.closed
  failure_count : ℕ := 0
  success_count : ℕ := 0
  last_failure_time : Option ℚ := none
  last_success_time : Option ℚ := none
  total_requests : ℕ := 0
  total_failures : ℕ := 0
  deriving DecidableEq, Repr

/-- The stats of a freshly constructed (or `reset`) breaker. -/
def initStats : CircuitBreakerStats := {}

/-- Configuration with failure threshold 1, used for concrete runs. -/
def cfgOne : CircuitBreakerConfig :=
  { failure_threshold := 1, recovery_timeout := 60, success_threshold := 3, timeout := 30 }

/-- Configuration with failure threshold 2, used for concrete runs. -/
def cfgTwo : CircuitBreakerConfig :=
  { failure_threshold := 2, recovery_timeout := 60, success_threshold := 3, timeout := 30 }

/-- Configuration with failure threshold 0, the boundary case of the
threshold claim. -/
def cfgZero : CircuitBreakerConfig :=
  { failure_threshold := 0, recovery_timeout := 60, success_threshold := 3, timeout := 30 }

/-- `CircuitBreaker._update_state` evaluated at time `now`.  In the OPEN
branch the Python guard is `if self.stats.last_failure_time and
now - last_failure_time >= recovery_timeout`: a `last_failure_time` of
`None` or of exactly `0.0` is falsy, so the transition also requires the
recorded time to be nonzero. -/
def update_state (cfg : CircuitBreakerConfig) (st : CircuitBreakerStats)
    (now : ℚ) : CircuitBreakerStats :=
  match st.state with
  | CircuitState.open_ =>
    match st.last_failure_time with
    | some lft =>
      if lft ≠ 0 ∧ cfg.recovery_timeout ≤ now - lft then
        { st with state := CircuitState.half_open, success_count := 0 }
      else st
    | none => st
  | CircuitState.half_open =>
    if cfg.success_threshold ≤ st.success_count then
      { st with state := CircuitState.closed, failure_count := 0 }
    else st
  | CircuitState.closed => st

/-- `CircuitBreaker._record_success` evaluated at time `now`. -/
def record_success (st : CircuitBreakerStats) (now : ℚ) : CircuitBreakerStats :=
  let st1 := { st with last_success_time := some now }
  match st1.state with
  | CircuitState.half_open => { st1 with success_count := st1.success_count + 1 }
  | CircuitState.closed => { st1 with failure_count := 0 }
  | CircuitState.open_ => st1

/-- `CircuitBreaker._record_failure` evaluated at time `now`: stamp the
failure, increment both failure counters, and open the circuit when the
state is CLOSED or HALF_OPEN and the updated `failure_count` reaches the
threshold. -/
def record_failure (cfg : CircuitBreakerConfig) (st : CircuitBreakerStats)
    (now : ℚ) : CircuitBreakerStats :=
  let st1 := { st with
    last_failure_time := some now,
    failure_count := st.failure_count + 1,
    total_failures := st.total_failures + 1 }
  if (st1.state = CircuitState.closed ∨ st1.state = CircuitState.half_open) ∧
      cfg.failure_threshold ≤ st1.failure_count then
    { st1 with state := CircuitState.open_ }
  else st1

/-- Outcome of one `CircuitBreaker.call`: the wrapped operation's value,
a raised `CircuitBreakerError` (the operation was not invoked), or the
operation's own exception re-raised after being recorded. -/
inductive BreakerOutcome (ε α : Type) where
  | ok (v : α)
  | breakerOpen
  | opError (e : ε)
  deriving DecidableEq, Repr

/-- `CircuitBreaker.call` at time `now`, with the wrapped operation's
behaviour supplied as `op : Except ε α` (`Except.error` models the
operation raising).  First the lazy `_update_state`, then rejection if
the state resolves to OPEN; otherwise `total_requests` is bumped, the
operation runs, and its success or failure is recorded before the result
or exception propagates. -/
def callE {ε α : Type} (cfg : CircuitBreakerConfig) (st : CircuitBreakerStats)
    (now : ℚ) (op : Except ε α) : CircuitBreakerStats × BreakerOutcome ε α :=
  let st1 := update_state cfg st now
  if st1.state = CircuitState.open_ then
    (st1, BreakerOutcome.breakerOpen)
  else
    let st2 := { st1 with total_requests := st1.total_requests + 1 }
    match op with
    | Except.ok v => (record_success st2 now, BreakerOutcome.ok v)
    | Except.error e => (record_failure cfg st2 now, BreakerOutcome.opError e)

/-- `CircuitBreaker.call` with only the success/failure of the operation
tracked (`opFails = true` means the operation raises). -/
def callU (cfg : CircuitBreakerConfig) (st : CircuitBreakerStats) (now : ℚ)
    (opFails : Bool) : CircuitBreakerStats × BreakerOutcome Unit Unit :=
  callE cfg st now (if opFails then Except.error () else Except.ok ())

/-- One `call` while also counting how many times the wrapped operation
is actually invoked (the operation body runs exactly on the non-rejected
path). -/
def callCount (cfg : CircuitBreakerConfig) (p : CircuitBreakerStats × ℕ) (now : ℚ)
    (opFails : Bool) : (CircuitBreakerStats × ℕ) × BreakerOutcome Unit Unit :=
  let r := callU cfg p.1 now opFails
  ((r.1, match r.2 with
    | BreakerOutcome.breakerOpen => p.2
    | _ => p.2 + 1), r.2)

/-- Run a sequence of calls whose wrapped operation always raises, at the
given times, threading the stats and the operation-invocation counter. -/
def runFailing (cfg : CircuitBreakerConfig) :
    CircuitBreakerStats × ℕ → List ℚ → CircuitBreakerStats × ℕ
  | p, [] => p
  | p, t :: ts => runFailing cfg (callCount cfg p t true).1 ts

/-- `GracefulDegradation.execute` at time `now` with fallback value `fb`
(both `CachedFallback` and `DefaultValueFallback` return their stored
`default_value` and never raise).  The source's
`except (CircuitBreakerError, Exception)` clause catches both the
breaker-open signal and the operation's propagated exception and returns
the fallback result; the `Except Unit` result type records whether any
exception escapes to the caller. -/
def gd_execute {ε α : Type} (cfg : CircuitBreakerConfig) (st : CircuitBreakerStats)
    (now : ℚ) (op : Except ε α) (fb : α) : CircuitBreakerStats × Except Unit α :=
  match callE cfg st now op with
  | (st', BreakerOutcome.ok v) => (st', Except.ok v)
  | (st', BreakerOutcome.breakerOpen) => (st', Except.ok fb)
  | (st', BreakerOutcome.opError _) => (st', Except.ok fb)

/-- The stats reachable from a fresh breaker through any sequence of
guarded calls (with arbitrary times and operation outcomes), lazy state
updates, and manual resets. -/
inductive Reachable (cfg : CircuitBreakerConfig) : CircuitBreakerStats → Prop where
  | init : Reachable cfg initStats
  | call (st : CircuitBreakerStats) (now : ℚ) (opFails : Bool) :
      Reachable cfg st → Reachable cfg (callU cfg st now opFails).1
  | update (st : CircuitBreakerStats) (now : ℚ) :
      Reachable cfg st → Reachable cfg (update_state cfg st now)
  | reset (st : CircuitBreakerStats) :
      Reachable cfg st → Reachable cfg initStats

/-- The key safety invariant of the breaker: whenever the state is OPEN
or HALF_OPEN, the failure counter has reached the configured threshold. -/
def ThresholdInv (cfg : CircuitBreakerConfig) (st : CircuitBreakerStats) : Prop :=
  st.state = CircuitState.open_ ∨ st.state = CircuitState.half_open →
    cfg.failure_threshold ≤ st.failure_count

/-- A `dropWhile` over a list none of whose elements satisfy the
predicate is the identity. -/
theorem dropWhile_eq_self_of {α : Type} (p : α → Bool) (l : List α)
    (h : ∀ x ∈ l, p x = false) : l.dropWhile p = l := by
  cases l with
  | nil => rfl
  | cons a tl =>
    have ha : p a = false := h a (List.mem_cons_self a tl)
    simp [List.dropWhile_cons, ha]

/-- Dropping a prefix never lengthens a list. -/
theorem length_dropWhile_le {α : Type} (p : α → Bool) (l : List α) :
    (l.dropWhile p).length ≤ l.length := by
  induction l with
  | nil => simp
  | cons a tl ih =>
    by_cases ha : p a
    · simp only [List.dropWhile_cons_of_pos ha]
      exact le_trans ih (Nat.le_succ _)
    · simp [List.dropWhile_cons_of_neg ha]

/-- If every timestamp stored for `key` is strictly newer than
`now - window * 2`, the periodic sweep of a call with this `window` at
this `now` leaves the `key` entry unchanged. -/
theorem sweep_requests_key (s : InMemoryRateLimiter) (key : String) (window now : ℚ)
    (h : ∀ x ∈ s.requests key, now - window * 2 < x) :
    (sweep s window now).requests key = s.requests key := by
  unfold sweep
  by_cases hc : 60 < now - s.last_cleanup
  · simp only [if_pos hc]
    exact dropWhile_eq_self_of _ _ fun x hx => decide_eq_false (not_le.mpr (h x hx))
  · simp [if_neg hc]

/-- If, in addition, every stored timestamp is strictly newer than
`now - window`, the in-window trim also removes nothing. -/
theorem trim_requests_key (s : InMemoryRateLimiter) (key : String) (window now : ℚ)
    (h : ∀ x ∈ s.requests key, now - window < x) (hW : 0 < window) :
    ((sweep s window now).requests key).dropWhile (fun t => decide (t ≤ now - window)) =
      s.requests key := by
  have h2 : ∀ x ∈ s.requests key, now - window * 2 < x := fun x hx =>
    lt_of_le_of_lt (by linarith) (h x hx)
  rw [sweep_requests_key s key window now h2]
  exact dropWhile_eq_self_of _ _ fun x hx => decide_eq_false (not_le.mpr (h x hx))

/-- Computation rule for the acceptance branch of `is_allowed`: when the
trimmed sequence is strictly below the limit, the call appends `now` for
`key` and returns `(True, None)`. -/
theorem is_allowed_accept (s : InMemoryRateLimiter) (key : String) (limit : ℕ)
    (window now : ℚ)
    (h : (((sweep s window now).requests key).dropWhile
        (fun t => decide (t ≤ now - window))).length < limit) :
    is_allowed s key limit window now =
      some ({ sweep s window now with
                requests := fun k => if k = key then
                    ((sweep s window now).requests key).dropWhile
                      (fun t => decide (t ≤ now - window)) ++ [now]
                  else (sweep s window now).requests k },
            true, none) := by
  simp only [is_allowed]
  rw [if_neg (not_le.mpr h)]

/-- Computation rule for the rejection branch of `is_allowed`: when the
trimmed sequence reaches the limit, the call persists the trim, appends
nothing, and returns `(False, int(oldest + window - now) + 1)`. -/
theorem is_allowed_reject (s : InMemoryRateLimiter) (key : String) (limit : ℕ)
    (window now : ℚ) (oldest_request : ℚ) (tl : List ℚ)
    (ht : ((sweep s window now).requests key).dropWhile
        (fun t => decide (t ≤ now - window)) = oldest_request :: tl)
    (h : limit ≤ (oldest_request :: tl).length) :
    is_allowed s key limit window now =
      some ({ sweep s window now with
                requests := fun k => if k = key then oldest_request :: tl
                  else (sweep s window now).requests k },
            false, some (truncInt (oldest_request + window - now) + 1)) := by
  simp only [is_allowed]
  rw [ht, if_pos h]

/-- C1 (evidence of the code bug): the periodic sweep triggered by key
A's small-window call deletes key B's still-in-window timestamp, so B's
second request is admitted, while the identical B-only trace rejects it
with `retry_after = 910`.  Trace: limiter constructed at t = 0; B calls
with limit 1 / window 1000 at t = 10 (admitted); A calls with limit 1 /
window 1 at t = 100 (admitted, sweep fires with cutoff 98 and erases B's
timestamp 10) and at t = 100.5 (rejected — A's limit is exhausted); B
calls again at t = 101. -/
theorem rateLimiter_sweep_cross_key_interference :
    runDecisions (initLimiter 0)
        [⟨"B", 1, 1000, 10⟩, ⟨"A", 1, 1, 100⟩, ⟨"A", 1, 1, 201/2⟩, ⟨"B", 1, 1000, 101⟩] =
      some [(true, none), (true, none), (false, some 1), (true, none)] ∧
    runDecisions (initLimiter 0) [⟨"B", 1, 1000, 10⟩, ⟨"B", 1, 1000, 101⟩] =
      some [(true, none), (false, some 910)] := by
  constructor <;> with_unfolding_all rfl

/-- C7: a key holding exactly `limit` admitted timestamps is admitted
again once `now` is at least window past the oldest one, because the trim
(and possibly the sweep) removes that oldest timestamp before the count
is compared with the limit. -/
theorem rateLimiter_readmit_after_window (s : InMemoryRateLimiter) (key : String)
    (t1 : ℚ) (rest : List ℚ) (window now : ℚ)
    (hk : s.requests key = t1 :: rest) (hnow : t1 + window ≤ now) :
    ∃ s2, is_allowed s key (rest.length + 1) window now = some (s2, true, none) := by
  have hp : decide (t1 ≤ now - window) = true := decide_eq_true (by linarith)
  have hlen : (((sweep s window now).requests key).dropWhile
      (fun t => decide (t ≤ now - window))).length < rest.length + 1 := by
    have hbound : ∀ l : List ℚ, (l.dropWhile (fun t => decide (t ≤ now - window))).length ≤ l.length :=
      fun l => length_dropWhile_le _ l
    unfold sweep
    by_cases hc : 60 < now - s.last_cleanup
    · simp only [if_pos hc]
      unfold cleanup_old_entries
      rw [hk]
      by_cases hq : t1 ≤ now - window * 2
      · simp only [List.dropWhile_cons, decide_eq_true hq, if_true]
        have h1 := hbound (rest.dropWhile (fun t => decide (t ≤ now - window * 2)))
        have h2 := length_dropWhile_le (fun t => decide (t ≤ now - window * 2)) rest
        omega
      · simp only [List.dropWhile_cons, decide_eq_false hq, Bool.false_eq_true, if_false, hp,
          if_true]
        have := hbound rest
        omega
    · simp only [if_neg hc]
      rw [hk]
      simp only [List.dropWhile_cons, hp, if_true]
      have := hbound rest
      omega
  exact ⟨_, is_allowed_accept s key (rest.length + 1) window now hlen⟩

/-- C7 witness: a key with the full window `[0, 5]` under limit 2 and
window 60 is admitted again at `now = 60`. -/
theorem rateLimiter_readmit_after_window_witness :
    ∃ s2, is_allowed ⟨fun k => if k = "k" then [0, 5] else [], 0⟩ "k" 2 60 60 =
      some (s2, true, none) :=
  rateLimiter_readmit_after_window ⟨fun k => if k = "k" then [0, 5] else [], 0⟩
    "k" 0 [5] 60 60 (by decide) (by norm_num)

/-- C8 counterexample to totality over all limits: with `limit = 0` and
no stored timestamps, the rejection branch indexes `request_times[0]` on
an empty deque and the Python call raises `IndexError` (modelled as
`none`). -/
theorem rateLimiter_zero_limit_raises :
    is_allowed (initLimiter 0) "k" 0 60 0 = none := by with_unfolding_all rfl

/-- C8 amended: for every positive limit (all configured policies have
`limit > 0`), `is_allowed` never raises: the rejection branch is reached
only with a sequence of length at least the limit, hence non-empty. -/
theorem rateLimiter_total_of_pos_limit (s : InMemoryRateLimiter) (key : String)
    (limit : ℕ) (window now : ℚ) (h : 1 ≤ limit) :
    ∃ out, is_allowed s key limit window now = some out := by
  by_cases hl : limit ≤ (((sweep s window now).requests key).dropWhile
      (fun t => decide (t ≤ now - window))).length
  · cases hcons : ((sweep s window now).requests key).dropWhile
        (fun t => decide (t ≤ now - window)) with
    | nil =>
      rw [hcons] at hl
      simp at hl
      omega
    | cons a tl =>
      rw [hcons] at hl
      exact ⟨_, is_allowed_reject s key limit window now a tl hcons hl⟩
  · exact ⟨_, is_allowed_accept s key limit window now (not_le.mp hl)⟩

/-- C8 witness: the amended totality at a concrete input. -/
theorem rateLimiter_total_of_pos_limit_witness :
    ∃ out, is_allowed (initLimiter 0) "k" 1 60 0 = some out :=
  rateLimiter_total_of_pos_limit (initLimiter 0) "k" 1 60 0 (by decide)

/-- A run of `is_allowed` calls for one key, all using the same limit and
window and all timed inside the window ending at `now`, is admitted
throughout while the key's stored sequence stays below the limit; the
stored sequence accumulates exactly the call times. -/
theorem runCalls_admits (key : String) (L : ℕ) (W now : ℚ) (hW : 0 < W) :
    ∀ (ts : List ℚ) (s : InMemoryRateLimiter) (acc : List ℚ),
      s.requests key = acc →
      (∀ x ∈ acc, now - W < x) →
      (∀ t ∈ ts, now - W < t ∧ t ≤ now) →
      acc.length + ts.length ≤ L →
      ∃ s1, runCalls s (ts.map fun t => ⟨key, L, W, t⟩) =
          some (s1, List.replicate ts.length (true, none)) ∧
        s1.requests key = acc ++ ts := by
  intro ts
  induction ts with
  | nil =>
    intro s acc hacc _ _ _
    exact ⟨s, by simp [runCalls], by simp [hacc]⟩
  | cons t ts' ih =>
    intro s acc hacc haccW htsW hlen
    have htW : now - W < t ∧ t ≤ now := htsW t (List.mem_cons_self _ _)
    have hkeyelems : ∀ x ∈ s.requests key, t - W < x := by
      rw [hacc]
      intro x hx
      have := haccW x hx
      have := htW.2
      linarith
    have htrim := trim_requests_key s key W t hkeyelems hW
    have hacc_lt : acc.length < L := by
      simp only [List.length_cons] at hlen
      omega
    have hshort : (((sweep s W t).requests key).dropWhile
        (fun x => decide (x ≤ t - W))).length < L := by
      rw [htrim, hacc]
      exact hacc_lt
    have hcall := is_allowed_accept s key L W t hshort
    have hacc2 : ({ sweep s W t with
        requests := fun k => if k = key then
            ((sweep s W t).requests key).dropWhile (fun x => decide (x ≤ t - W)) ++ [t]
          else (sweep s W t).requests k } : InMemoryRateLimiter).requests key =
        acc ++ [t] := by
      simp [htrim, hacc]
    obtain ⟨s1, hrun, hkey1⟩ := ih _ (acc ++ [t]) hacc2
      (by
        intro x hx
        rcases List.mem_append.mp hx with h | h
        · exact haccW x h
        · rw [List.mem_singleton.mp h]
          exact htW.1)
      (fun u hu => htsW u (List.mem_cons_of_mem _ hu))
      (by
        rw [List.length_append]
        simp only [List.length_cons] at hlen
        simp only [List.length_singleton]
        omega)
    refine ⟨s1, ?_, ?_⟩
    · simp only [List.map_cons, runCalls, hcall, hrun, List.length_cons, List.replicate_succ]
    · rw [hkey1, List.append_assoc, List.singleton_append]

/-- C2: for limit `L > 0` and window `W > 0`, after `L` admitted calls
for a key (starting with no history for that key) all within the last `W`
seconds, the next call at `now` within the same window is rejected with
`retry_after = floor(oldest_remaining + W - now) + 1 > 0`, and the
rejected call does not append a timestamp to the key's sequence. -/
theorem rateLimiter_rejects_after_limit (s0 : InMemoryRateLimiter) (key : String)
    (L : ℕ) (W : ℚ) (ts : List ℚ) (now : ℚ)
    (hL : 0 < L) (hW : 0 < W)
    (h0 : s0.requests key = [])
    (hlen : ts.length = L)
    (hts : ∀ t ∈ ts, now - W < t ∧ t ≤ now) :
    ∃ s1 s2 r,
      runCalls s0 (ts.map fun t => ⟨key, L, W, t⟩) =
        some (s1, List.replicate L (true, none)) ∧
      is_allowed s1 key L W now = some (s2, false, some r) ∧
      0 < r ∧ r = ⌊ts.headI + W - now⌋ + 1 ∧
      s2.requests key = s1.requests key := by
  obtain ⟨s1, hrun, hkey⟩ := runCalls_admits key L W now hW ts s0 [] h0 (by simp) hts
    (by simp [hlen])
  rw [List.nil_append] at hkey
  obtain ⟨a, tl, rfl⟩ : ∃ a tl, ts = a :: tl := by
    cases ts with
    | nil =>
      rw [List.length_nil] at hlen
      omega
    | cons a tl => exact ⟨a, tl, rfl⟩
  have haW : now - W < a ∧ a ≤ now := hts a (List.mem_cons_self _ _)
  have hkeyelems : ∀ x ∈ s1.requests key, now - W < x := by
    rw [hkey]
    intro x hx
    exact (hts x hx).1
  have htrim : ((sweep s1 W now).requests key).dropWhile
      (fun x => decide (x ≤ now - W)) = a :: tl := by
    rw [trim_requests_key s1 key W now hkeyelems hW, hkey]
  have hfull : L ≤ (a :: tl).length := le_of_eq hlen.symm
  have hreject := is_allowed_reject s1 key L W now a tl htrim hfull
  have hq : 0 < a + W - now := by
    have := haW.1
    linarith
  have htrunc : truncInt (a + W - now) = ⌊a + W - now⌋ := if_pos hq.le
  refine ⟨s1, _, truncInt (a + W - now) + 1, hrun.trans (by rw [hlen]), hreject, ?_, ?_, ?_⟩
  · rw [htrunc]
    have : (0 : ℤ) ≤ ⌊a + W - now⌋ := Int.floor_nonneg.mpr hq.le
    omega
  · rw [htrunc, List.headI]
  · simp [hkey]

/-- Lazy state updates preserve the threshold invariant (the transition
OPEN to HALF_OPEN touches only `state` and `success_count`). -/
theorem inv_update_state (cfg : CircuitBreakerConfig) (st : CircuitBreakerStats)
    (now : ℚ) (h : ThresholdInv cfg st) : ThresholdInv cfg (update_state cfg st now) := by
  unfold ThresholdInv at h ⊢
  unfold update_state
  cases hst : st.state with
  | closed =>
    simp only [hst]
    intro hor
    rcases hor with h1 | h1 <;> cases h1
  | open_ =>
    cases hl : st.last_failure_time with
    | none =>
      simp only [hst, hl]
      intro _
      exact h (Or.inl hst)
    | some lft =>
      simp only [hst, hl]
      by_cases hc : lft ≠ 0 ∧ cfg.recovery_timeout ≤ now - lft
      · rw [if_pos hc]
        intro _
        exact h (Or.inl hst)
      · rw [if_neg hc]; exact h
  | half_open =>
    simp only [hst]
    by_cases hc : cfg.success_threshold ≤ st.success_count
    · rw [if_pos hc]
      intro hor
      rcases hor with h1 | h1 <;> simp at h1
    · rw [if_neg hc]; exact h

/-- Recording a success preserves the threshold invariant: it never
changes the state, and resets the failure counter only while CLOSED. -/
theorem inv_record_success (cfg : CircuitBreakerConfig) (st : CircuitBreakerStats)
    (now : ℚ) (h : ThresholdInv cfg st) : ThresholdInv cfg (record_success st now) := by
  unfold ThresholdInv at h ⊢
  unfold record_success
  cases hst : st.state with
  | closed =>
    simp only [hst]
    intro hor
    rcases hor with h1 | h1 <;> simp at h1
  | open_ =>
    simp only [hst]
    intro _
    exact h (Or.inl hst)
  | half_open =>
    simp only [hst]
    intro _
    exact h (Or.inr hst)

/-- Recording a failure preserves the threshold invariant: either it
opens the circuit with the counter at the threshold, or it only grows the
counter. -/
theorem inv_record_failure (cfg : CircuitBreakerConfig) (st : CircuitBreakerStats)
    (now : ℚ) (h : ThresholdInv cfg st) : ThresholdInv cfg (record_failure cfg st now) := by
  unfold ThresholdInv at h ⊢
  unfold record_failure
  by_cases hc : (st.state = CircuitState.closed ∨ st.state = CircuitState.half_open) ∧
      cfg.failure_threshold ≤ st.failure_count + 1
  · rw [if_pos hc]
    intro _
    exact hc.2
  · rw [if_neg hc]
    intro hor
    exact le_trans (h hor) (Nat.le_succ _)

/-- A guarded call preserves the threshold invariant. -/
theorem inv_callU (cfg : CircuitBreakerConfig) (st : CircuitBreakerStats) (now : ℚ)
    (b : Bool) (h : ThresholdInv cfg st) : ThresholdInv cfg (callU cfg st now b).1 := by
  unfold callU callE
  by_cases hc : (update_state cfg st now).state = CircuitState.open_
  · rw [if_pos hc]
    exact inv_update_state cfg st now h
  · rw [if_neg hc]
    have h1 : ThresholdInv cfg
        { update_state cfg st now with
          total_requests := (update_state cfg st now).total_requests + 1 } :=
      inv_update_state cfg st now h
    cases b with
    | true => exact inv_record_failure cfg _ now h1
    | false => exact inv_record_success cfg _ now h1

/-- Every reachable breaker state satisfies the threshold invariant. -/
theorem reachable_threshold_inv (cfg : CircuitBreakerConfig) (st : CircuitBreakerStats)
    (h : Reachable cfg st) : ThresholdInv cfg st := by
  induction h with
  | init => intro hor; rcases hor with h1 | h1 <;> simp [initStats] at h1
  | call st now b _ ih => exact inv_callU cfg st now b ih
  | update st now _ ih => exact inv_update_state cfg st now ih
  | reset st _ _ => intro hor; rcases hor with h1 | h1 <;> simp [initStats] at h1

/-- A lazy update in the CLOSED state does nothing. -/
theorem update_state_closed (cfg : CircuitBreakerConfig) (st : CircuitBreakerStats)
    (now : ℚ) (hs : st.state = CircuitState.closed) : update_state cfg st now = st := by
  unfold update_state
  simp only [hs]

/-- A lazy update in the OPEN state before the recovery deadline (or with
a falsy recorded failure time) does nothing. -/
theorem update_state_open_stay (cfg : CircuitBreakerConfig) (st : CircuitBreakerStats)
    (now : ℚ) (hs : st.state = CircuitState.open_)
    (hc : ∀ lft, st.last_failure_time = some lft →
      ¬(lft ≠ 0 ∧ cfg.recovery_timeout ≤ now - lft)) :
    update_state cfg st now = st := by
  unfold update_state
  simp only [hs]
  cases hl : st.last_failure_time with
  | none => rfl
  | some lft =>
    simp only []
    rw [if_neg (hc lft hl)]

/-- A lazy update in the OPEN state with a truthy recorded failure time
past the recovery deadline moves to HALF_OPEN and resets only the
half-open success counter. -/
theorem update_state_open_to_half (cfg : CircuitBreakerConfig) (st : CircuitBreakerStats)
    (now lft : ℚ) (hs : st.state = CircuitState.open_)
    (hl : st.last_failure_time = some lft) (h0 : lft ≠ 0)
    (hr : cfg.recovery_timeout ≤ now - lft) :
    update_state cfg st now =
      { st with state := CircuitState.half_open, success_count := 0 } := by
  unfold update_state
  simp only [hs, hl]
  rw [if_pos ⟨h0, hr⟩]

/-- If the lazy update lands in OPEN it was a no-op: no transition of
`_update_state` produces OPEN. -/
theorem update_state_eq_of_open (cfg : CircuitBreakerConfig) (st : CircuitBreakerStats)
    (now : ℚ) (h : (update_state cfg st now).state = CircuitState.open_) :
    update_state cfg st now = st := by
  unfold update_state at h ⊢
  cases hst : st.state with
  | closed => simp only [hst]
  | open_ =>
    simp only [hst] at h ⊢
    cases hl : st.last_failure_time with
    | none => rfl
    | some lft =>
      simp only []
      simp only [hl] at h
      by_cases hc : lft ≠ 0 ∧ cfg.recovery_timeout ≤ now - lft
      · rw [if_pos hc] at h
        cases h
      · rw [if_neg hc]
  | half_open =>
    simp only [hst] at h ⊢
    by_cases hc : cfg.success_threshold ≤ st.success_count
    · rw [if_pos hc] at h
      cases h
    · rw [if_neg hc]

/-- Recording a failure from CLOSED or HALF_OPEN with the incremented
counter at the threshold opens the circuit and stamps the failure time. -/
theorem record_failure_opens (cfg : CircuitBreakerConfig) (st : CircuitBreakerStats)
    (now : ℚ) (hsc : st.state = CircuitState.closed ∨ st.state = CircuitState.half_open)
    (hth : cfg.failure_threshold ≤ st.failure_count + 1) :
    (record_failure cfg st now).state = CircuitState.open_ ∧
    (record_failure cfg st now).last_failure_time = some now ∧
    (record_failure cfg st now).failure_count = st.failure_count + 1 := by
  unfold record_failure
  rw [if_pos ⟨hsc, hth⟩]
  exact ⟨rfl, rfl, rfl⟩

/-- Recording a failure from CLOSED below the threshold stays CLOSED. -/
theorem record_failure_stays_closed (cfg : CircuitBreakerConfig) (st : CircuitBreakerStats)
    (now : ℚ) (hs : st.state = CircuitState.closed)
    (hlt : st.failure_count + 1 < cfg.failure_threshold) :
    (record_failure cfg st now).state = CircuitState.closed ∧
    (record_failure cfg st now).failure_count = st.failure_count + 1 := by
  unfold record_failure
  rw [if_neg fun hcon => absurd hcon.2 (not_le.mpr hlt)]
  exact ⟨hs, rfl⟩

/-- A call whose state resolves to OPEN is rejected with the stats
exactly as the lazy update left them. -/
theorem callU_rejected_of_open (cfg : CircuitBreakerConfig) (st : CircuitBreakerStats)
    (now : ℚ) (b : Bool) (h : (update_state cfg st now).state = CircuitState.open_) :
    callU cfg st now b = (st, BreakerOutcome.breakerOpen) := by
  simp only [callU, callE]
  rw [if_pos h, update_state_eq_of_open cfg st now h]

/-- A failing call whose state does not resolve to OPEN bumps
`total_requests` and records the failure; the operation's exception
propagates. -/
theorem callU_fail_records (cfg : CircuitBreakerConfig) (st : CircuitBreakerStats)
    (now : ℚ) (hno : (update_state cfg st now).state ≠ CircuitState.open_) :
    (callU cfg st now true).1 = record_failure cfg
      { update_state cfg st now with
        total_requests := (update_state cfg st now).total_requests + 1 } now ∧
    (callU cfg st now true).2 = BreakerOutcome.opError () := by
  simp only [callU, callE]
  rw [if_neg hno]
  exact ⟨rfl, rfl⟩

/-- A successful call whose state does not resolve to OPEN bumps
`total_requests` and records the success. -/
theorem callU_success_records (cfg : CircuitBreakerConfig) (st : CircuitBreakerStats)
    (now : ℚ) (hno : (update_state cfg st now).state ≠ CircuitState.open_) :
    (callU cfg st now false).1 = record_success
      { update_state cfg st now with
        total_requests := (update_state cfg st now).total_requests + 1 } now ∧
    (callU cfg st now false).2 = BreakerOutcome.ok () := by
  simp only [callU, callE]
  rw [if_neg hno]
  exact ⟨rfl, rfl⟩

/-- Running an all-failing call sequence splits over append. -/
theorem runFailing_append (cfg : CircuitBreakerConfig) (l1 l2 : List ℚ) :
    ∀ p, runFailing cfg p (l1 ++ l2) = runFailing cfg (runFailing cfg p l1) l2 := by
  induction l1 with
  | nil => intro p; rfl
  | cons t ts ih => intro p; exact ih _

/-- While the failure counter stays below the threshold, consecutive
failing calls from CLOSED keep the breaker CLOSED, increment the failure
counter once per call, and invoke the operation on every call. -/
theorem runFailing_below_threshold (cfg : CircuitBreakerConfig) :
    ∀ (ts : List ℚ) (st : CircuitBreakerStats) (k : ℕ),
      st.state = CircuitState.closed →
      st.failure_count + ts.length < cfg.failure_threshold →
      (runFailing cfg (st, k) ts).1.state = CircuitState.closed ∧
      (runFailing cfg (st, k) ts).1.failure_count = st.failure_count + ts.length ∧
      (runFailing cfg (st, k) ts).2 = k + ts.length := by
  intro ts
  induction ts with
  | nil =>
    intro st k hs _
    exact ⟨hs, by simp [runFailing], by simp [runFailing]⟩
  | cons t ts' ih =>
    intro st k hs hlt
    simp only [List.length_cons] at hlt
    have hupd := update_state_closed cfg st t hs
    have hno : (update_state cfg st t).state ≠ CircuitState.open_ := by
      rw [hupd, hs]
      intro hcon
      cases hcon
    obtain ⟨hrec, hout⟩ := callU_fail_records cfg st t hno
    have hstep : (callCount cfg (st, k) t true).1 =
        ((callU cfg st t true).1, k + 1) := by
      simp only [callCount, hout]
    have hmid : ((callU cfg st t true).1).state = CircuitState.closed ∧
        ((callU cfg st t true).1).failure_count = st.failure_count + 1 := by
      rw [hrec, hupd]
      exact record_failure_stays_closed cfg _ t hs
        (by show st.failure_count + 1 < cfg.failure_threshold; omega)
    have hrun : runFailing cfg (st, k) (t :: ts') =
        runFailing cfg ((callU cfg st t true).1, k + 1) ts' := by
      show runFailing cfg (callCount cfg (st, k) t true).1 ts' = _
      rw [hstep]
    obtain ⟨ih1, ih2, ih3⟩ := ih ((callU cfg st t true).1) (k + 1) hmid.1
      (by rw [hmid.2]; omega)
    refine ⟨?_, ?_, ?_⟩
    · rw [hrun]
      exact ih1
    · rw [hrun, ih2, hmid.2, List.length_cons]
      omega
    · rw [hrun, ih3, List.length_cons]
      omega

/-- C2 witness: key with no history, limit 2 and window 60; admitted
calls at times 5 and 10, then a rejection at time 20 with positive
`retry_after`. -/
theorem rateLimiter_rejects_after_limit_witness :
    ∃ s1 s2 r,
      runCalls (initLimiter 0) (([5, 10] : List ℚ).map fun t => ⟨"k", 2, 60, t⟩) =
        some (s1, List.replicate 2 (true, none)) ∧
      is_allowed s1 "k" 2 60 20 = some (s2, false, some r) ∧
      0 < r ∧ r = ⌊([5, 10] : List ℚ).headI + 60 - 20⌋ + 1 ∧
      s2.requests "k" = s1.requests "k" :=
  rateLimiter_rejects_after_limit (initLimiter 0) "k" 2 60 [5, 10] 20
    (by norm_num) (by norm_num) rfl (by norm_num)
    (by
      simp only [List.mem_cons, List.mem_singleton, List.not_mem_nil]
      rintro t (rfl | rfl | h)
      · constructor <;> norm_num
      · constructor <;> norm_num
      · cases h)

/-- C9: in every breaker state reachable through any sequence of guarded
calls, lazy updates and resets, being OPEN or HALF_OPEN implies
`failure_count >= failure_threshold`; moreover, the lazy update from OPEN
never changes `failure_count` (the OPEN to HALF_OPEN transition resets
only `success_count`), which is why a single further failure while
HALF_OPEN satisfies the re-open condition. -/
theorem breaker_threshold_invariant (cfg : CircuitBreakerConfig)
    (st : CircuitBreakerStats) (h : Reachable cfg st) :
    (st.state = CircuitState.open_ ∨ st.state = CircuitState.half_open →
      cfg.failure_threshold ≤ st.failure_count) ∧
    ∀ now, st.state = CircuitState.open_ →
      (update_state cfg st now).failure_count = st.failure_count := by
  refine ⟨reachable_threshold_inv cfg st h, ?_⟩
  intro now hst
  unfold update_state
  simp only [hst]
  cases hl : st.last_failure_time with
  | none => rfl
  | some lft =>
    simp only []
    by_cases hc : lft ≠ 0 ∧ cfg.recovery_timeout ≤ now - lft
    · rw [if_pos hc]
    · rw [if_neg hc]

/-- C9 witness: one failing call under threshold 1 yields a reachable
OPEN state whose failure counter has reached the threshold. -/
theorem breaker_threshold_invariant_witness :
    cfgOne.failure_threshold ≤ ((callU cfgOne initStats 10 true).1).failure_count :=
  (breaker_threshold_invariant cfgOne (callU cfgOne initStats 10 true).1
    (Reachable.call initStats 10 true Reachable.init)).1
    (Or.inl (by with_unfolding_all rfl))

/-- C3: from every reachable HALF_OPEN state, a recorded failure returns
the breaker to OPEN (reachability keeps the failure counter at the
threshold, so the re-open condition of `_record_failure` fires), and
whenever the breaker next re-enters HALF_OPEN through the lazy update its
success counter starts at zero again. -/
theorem breaker_halfopen_failure_reopens (cfg : CircuitBreakerConfig)
    (st : CircuitBreakerStats) (now : ℚ) (hr : Reachable cfg st)
    (hs : st.state = CircuitState.half_open) :
    (record_failure cfg st now).state = CircuitState.open_ ∧
    ∀ now2, (update_state cfg (record_failure cfg st now) now2).state =
        CircuitState.half_open →
      (update_state cfg (record_failure cfg st now) now2).success_count = 0 := by
  have hinv := reachable_threshold_inv cfg st hr (Or.inr hs)
  obtain ⟨hopen, hlft, hcount⟩ :=
    record_failure_opens cfg st now (Or.inr hs) (le_trans hinv (Nat.le_succ _))
  refine ⟨hopen, ?_⟩
  intro now2 hhalf
  unfold update_state at hhalf ⊢
  simp only [hopen, hlft] at hhalf ⊢
  by_cases hc : now ≠ 0 ∧ cfg.recovery_timeout ≤ now2 - now
  · rw [if_pos hc]
  · rw [if_neg hc] at hhalf
    rw [hopen] at hhalf
    cases hhalf

/-- C3 witness: a concrete reachable HALF_OPEN breaker (threshold 1:
failure at t = 10 opens it, a successful probe at t = 70 runs half-open)
is re-opened by a failure recorded at t = 80. -/
theorem breaker_halfopen_failure_reopens_witness :
    (record_failure cfgOne (callU cfgOne (callU cfgOne initStats 10 true).1 70 false).1
        80).state = CircuitState.open_ :=
  (breaker_halfopen_failure_reopens cfgOne
    (callU cfgOne (callU cfgOne initStats 10 true).1 70 false).1 80
    (Reachable.call _ 70 false (Reachable.call initStats 10 true Reachable.init))
    (by with_unfolding_all rfl)).1

/-- C4 (amended to thresholds `N >= 1`, here `N = |ts| + 1`): starting
from a fresh CLOSED breaker, `N` consecutive failing calls leave the
breaker OPEN with the operation invoked exactly `N` times, and a further
call before the recovery deadline raises `CircuitBreakerError` without
the operation being invoked. -/
theorem breaker_opens_after_threshold (cfg : CircuitBreakerConfig)
    (ts : List ℚ) (tN t : ℚ) (b : Bool)
    (hN : cfg.failure_threshold = ts.length + 1)
    (ht : t - tN < cfg.recovery_timeout) :
    (runFailing cfg (initStats, 0) (ts ++ [tN])).1.state = CircuitState.open_ ∧
    (runFailing cfg (initStats, 0) (ts ++ [tN])).2 = ts.length + 1 ∧
    (callCount cfg (runFailing cfg (initStats, 0) (ts ++ [tN])) t b).2 =
      BreakerOutcome.breakerOpen ∧
    (callCount cfg (runFailing cfg (initStats, 0) (ts ++ [tN])) t b).1.2 =
      ts.length + 1 := by
  obtain ⟨h1, h2, h3⟩ := runFailing_below_threshold cfg ts initStats 0 rfl
    (by
      show (0 : ℕ) + ts.length < cfg.failure_threshold
      omega)
  set p1 := runFailing cfg (initStats, 0) ts with hp1
  have happ : runFailing cfg (initStats, 0) (ts ++ [tN]) = (callCount cfg p1 tN true).1 := by
    rw [runFailing_append, ← hp1]
    rfl
  have hupd : update_state cfg p1.1 tN = p1.1 := update_state_closed cfg p1.1 tN h1
  have hno : (update_state cfg p1.1 tN).state ≠ CircuitState.open_ := by
    rw [hupd, h1]
    intro hcon
    cases hcon
  obtain ⟨hrec, hout⟩ := callU_fail_records cfg p1.1 tN hno
  have hbump : ({ update_state cfg p1.1 tN with
      total_requests := (update_state cfg p1.1 tN).total_requests + 1 }).state =
      CircuitState.closed := by
    show (update_state cfg p1.1 tN).state = CircuitState.closed
    rw [hupd]
    exact h1
  have hth : cfg.failure_threshold ≤ ({ update_state cfg p1.1 tN with
      total_requests := (update_state cfg p1.1 tN).total_requests + 1 }).failure_count + 1 := by
    show cfg.failure_threshold ≤ (update_state cfg p1.1 tN).failure_count + 1
    rw [hupd, h2]
    have h0 : initStats.failure_count = 0 := rfl
    omega
  obtain ⟨hst3, hlft3, hcnt3⟩ := record_failure_opens cfg _ tN (Or.inl hbump) hth
  have hcall1 : ((callU cfg p1.1 tN true).1).state = CircuitState.open_ := by
    rw [hrec]
    exact hst3
  have hcall2 : ((callU cfg p1.1 tN true).1).last_failure_time = some tN := by
    rw [hrec]
    exact hlft3
  have hstep : (callCount cfg p1 tN true).1 = ((callU cfg p1.1 tN true).1, p1.2 + 1) := by
    simp only [callCount, hout]
  have hstay : update_state cfg (callU cfg p1.1 tN true).1 t = (callU cfg p1.1 tN true).1 :=
    update_state_open_stay cfg _ t hcall1
      (by
        intro lft hl
        rw [hcall2] at hl
        injection hl with hl2
        subst hl2
        intro hcon
        exact absurd hcon.2 (not_le.mpr ht))
  have hrej : callU cfg (callU cfg p1.1 tN true).1 t b =
      ((callU cfg p1.1 tN true).1, BreakerOutcome.breakerOpen) :=
    callU_rejected_of_open cfg _ t b (by rw [hstay]; exact hcall1)
  refine ⟨?_, ?_, ?_, ?_⟩
  · rw [happ, hstep]
    exact hcall1
  · rw [happ, hstep]
    show p1.2 + 1 = ts.length + 1
    omega
  · rw [happ, hstep]
    show (callCount cfg ((callU cfg p1.1 tN true).1, p1.2 + 1) t b).2 =
      BreakerOutcome.breakerOpen
    simp only [callCount, hrej]
  · rw [happ, hstep]
    show (callCount cfg ((callU cfg p1.1 tN true).1, p1.2 + 1) t b).1.2 = ts.length + 1
    simp only [callCount, hrej]
    omega

/-- C4 witness: threshold 2, failing calls at t = 1 and t = 2 open the
breaker; a call at t = 3 (one second after the last failure) is rejected
without the operation running. -/
theorem breaker_opens_after_threshold_witness :
    (runFailing cfgTwo (initStats, 0) ([1] ++ [(2 : ℚ)])).1.state = CircuitState.open_ ∧
    (callCount cfgTwo (runFailing cfgTwo (initStats, 0) ([1] ++ [(2 : ℚ)])) 3 true).2 =
      BreakerOutcome.breakerOpen :=
  ⟨(breaker_opens_after_threshold cfgTwo [1] 2 3 true rfl (by norm_num [cfgTwo])).1,
   (breaker_opens_after_threshold cfgTwo [1] 2 3 true rfl (by norm_num [cfgTwo])).2.2.1⟩

/-- C4 counterexample at `N = 0`: with `failure_threshold = 0`, after the
claimed `N = 0` consecutive failing calls the breaker is still CLOSED,
not OPEN, and the `(N+1)`th call invokes the wrapped operation (counter
reaches 1) instead of raising `CircuitBreakerError`. -/
theorem breaker_zero_threshold_counterexample :
    (runFailing cfgZero (initStats, 0) []).1.state = CircuitState.closed ∧
    (callCount cfgZero (initStats, 0) 5 true).1.2 = 1 ∧
    (callCount cfgZero (initStats, 0) 5 true).2 ≠ BreakerOutcome.breakerOpen := by
  refine ⟨rfl, ?_, ?_⟩
  · with_unfolding_all rfl
  · intro hcon
    cases (by with_unfolding_all rfl :
      (callCount cfgZero (initStats, 0) 5 true).2 = BreakerOutcome.opError ()) ▸ hcon

/-- C5 (amended: the recorded `last_failure_time` must also be truthy,
i.e. nonzero, because the Python guard tests the float itself): an OPEN
breaker whose recorded nonzero failure time lies at least
`recovery_timeout` before `now` transitions to HALF_OPEN on the next call
and lets it through to the wrapped operation. -/
theorem breaker_recovery_to_halfopen (cfg : CircuitBreakerConfig)
    (st : CircuitBreakerStats) (now lft : ℚ) (b : Bool) (k : ℕ)
    (hs : st.state = CircuitState.open_)
    (hl : st.last_failure_time = some lft)
    (h0 : lft ≠ 0)
    (hr : cfg.recovery_timeout ≤ now - lft) :
    (update_state cfg st now).state = CircuitState.half_open ∧
    (callU cfg st now b).2 ≠ BreakerOutcome.breakerOpen ∧
    (callCount cfg (st, k) now b).1.2 = k + 1 := by
  have hupd := update_state_open_to_half cfg st now lft hs hl h0 hr
  have hhalf : (update_state cfg st now).state = CircuitState.half_open := by rw [hupd]
  have hno : (update_state cfg st now).state ≠ CircuitState.open_ := by
    rw [hhalf]
    intro hcon
    cases hcon
  refine ⟨hhalf, ?_, ?_⟩
  · cases b with
    | true =>
      rw [(callU_fail_records cfg st now hno).2]
      intro hcon
      cases hcon
    | false =>
      rw [(callU_success_records cfg st now hno).2]
      intro hcon
      cases hcon
  · cases b with
    | true => simp only [callCount, (callU_fail_records cfg st now hno).2]
    | false => simp only [callCount, (callU_success_records cfg st now hno).2]

/-- C5 witness: breaker opened by a failure at t = 10 under threshold 1;
the call at t = 70 (exactly the 60-second recovery timeout later) moves
to HALF_OPEN and invokes the operation. -/
theorem breaker_recovery_to_halfopen_witness :
    (update_state cfgOne (callU cfgOne initStats 10 true).1 70).state =
      CircuitState.half_open ∧
    (callCount cfgOne ((callU cfgOne initStats 10 true).1, 0) 70 false).1.2 = 1 :=
  ⟨(breaker_recovery_to_halfopen cfgOne (callU cfgOne initStats 10 true).1 70 10 false 0
      (by with_unfolding_all rfl) (by with_unfolding_all rfl) (by norm_num)
      (by norm_num [cfgOne])).1,
   (breaker_recovery_to_halfopen cfgOne (callU cfgOne initStats 10 true).1 70 10 false 0
      (by with_unfolding_all rfl) (by with_unfolding_all rfl) (by norm_num)
      (by norm_num [cfgOne])).2.2⟩

/-- C5 counterexample: a reachable OPEN breaker with recorded
`last_failure_time = 0.0` (failure at time 0): the Python guard
`if self.stats.last_failure_time and ...` treats `0.0` as falsy, so at
`now = 100` — far past the 60-second recovery timeout — the call is
still rejected and the breaker stays OPEN instead of moving to HALF_OPEN
and invoking the operation. -/
theorem breaker_zero_failure_time_stays_open :
    ((callU cfgOne initStats 0 true).1).state = CircuitState.open_ ∧
    ((callU cfgOne initStats 0 true).1).last_failure_time = some 0 ∧
    cfgOne.recovery_timeout ≤ (100 : ℚ) - 0 ∧
    (callU cfgOne (callU cfgOne initStats 0 true).1 100 false).2 =
      BreakerOutcome.breakerOpen ∧
    (callU cfgOne (callU cfgOne initStats 0 true).1 100 false).1.state =
      CircuitState.open_ := by
  refine ⟨by with_unfolding_all rfl, by with_unfolding_all rfl, by norm_num [cfgOne],
    ?_, ?_⟩
  · with_unfolding_all rfl
  · with_unfolding_all rfl

/-- C6: `GracefulDegradation.execute` always returns a value and never
raises: the wrapped result when the breaker admits the call and the
operation succeeds, and the fallback value whenever the breaker raises
`CircuitBreakerError` or the operation's own exception propagates through
the breaker. -/
theorem gd_execute_total {ε α : Type} (cfg : CircuitBreakerConfig)
    (st : CircuitBreakerStats) (now : ℚ) (op : Except ε α) (fb : α) :
    (gd_execute cfg st now op fb).2 =
      Except.ok (match (callE cfg st now op).2 with
        | BreakerOutcome.ok v => v
        | BreakerOutcome.breakerOpen => fb
        | BreakerOutcome.opError _ => fb) := by
  unfold gd_execute
  rcases hc : callE cfg st now op with ⟨st2, out⟩
  cases out <;> rfl

/-- C10: a call rejected because the state resolves to OPEN leaves every
observability field of the stats exactly as it was — rejected calls are
invisible in the `get_stats` snapshot. -/
theorem breaker_rejection_preserves_stats {ε α : Type} (cfg : CircuitBreakerConfig)
    (st : CircuitBreakerStats) (now : ℚ) (op : Except ε α)
    (h : (callE cfg st now op).2 = BreakerOutcome.breakerOpen) :
    (callE cfg st now op).1.total_requests = st.total_requests ∧
    (callE cfg st now op).1.total_failures = st.total_failures ∧
    (callE cfg st now op).1.failure_count = st.failure_count ∧
    (callE cfg st now op).1.success_count = st.success_count ∧
    (callE cfg st now op).1.last_failure_time = st.last_failure_time ∧
    (callE cfg st now op).1.last_success_time = st.last_success_time := by
  have hopen : (update_state cfg st now).state = CircuitState.open_ := by
    by_contra hno
    simp only [callE] at h
    rw [if_neg hno] at h
    cases op with
    | ok v => simp at h
    | error e => simp at h
  have heq : (callE cfg st now op).1 = st := by
    simp only [callE]
    rw [if_pos hopen]
    exact update_state_eq_of_open cfg st now hopen
  rw [heq]
  exact ⟨rfl, rfl, rfl, rfl, rfl, rfl⟩

/-- C10 witness: a rejected call at t = 20 on the breaker opened at
t = 10 leaves `total_requests` untouched. -/
theorem breaker_rejection_preserves_stats_witness :
    (callE cfgOne (callU cfgOne initStats 10 true).1 20
        (Except.ok () : Except Unit Unit)).1.total_requests =
      ((callU cfgOne initStats 10 true).1).total_requests :=
  (breaker_rejection_preserves_stats cfgOne (callU cfgOne initStats 10 true).1 20
    (Except.ok () : Except Unit Unit) (by with_unfolding_all rfl)).1

end Go2
